import Mathlib

/-!
Verification of the text-normalization and validation pipeline of the
market-research assistant (`armaanstreamlit.py`).

Python strings are modelled as `List Char` (`Str`).  The regular
expressions used by the program are simple enough that their (leftmost,
greedy, backtracking) matching behaviour is deterministic; each one is
embedded as an explicit scanner over `List Char`.  Scanners whose
recursion is not structural are written with an explicit fuel parameter
(`fuel = length of the input` always suffices, since every step consumes
at least one character); this keeps every definition kernel-reducible.
-/

abbrev Str := List Char

/-- Whitespace as recognised by Python's `str.strip` / regex `\s`
(ASCII fragment: space, tab, newline, carriage return, vertical tab,
form feed). -/
def pyIsSpace (c : Char) : Bool :=
  c == ' ' || c == '\t' || c == '\n' || c == '\r' || c == '\x0b' || c == '\x0c'

/-- Python `str.lower` (ASCII). -/
def lowerStr (s : Str) : Str := s.map Char.toLower

/-- Decidable "p is a prefix of l". -/
def isPrefixL : Str → Str → Bool
  | [], _ => true
  | _ :: _, [] => false
  | p :: ps, c :: cs => p == c && isPrefixL ps cs

/-- Decidable "needle occurs as a contiguous substring of hay"
(Python's `in` operator on strings). -/
def containsSub (needle : Str) : Str → Bool
  | [] => needle.isEmpty
  | c :: cs => isPrefixL needle (c :: cs) || containsSub needle cs

/-- Python `str.strip()` (no arguments): remove leading and trailing
whitespace. -/
def pyStrip (s : Str) : Str :=
  ((s.dropWhile pyIsSpace).reverse.dropWhile pyIsSpace).reverse

/-- Python `str.rstrip(chars)`: remove trailing characters drawn from
`set`. -/
def pyRStrip (set : Str) (s : Str) : Str :=
  (s.reverse.dropWhile (fun c => set.contains c)).reverse

/-- Consume the literal `p` from the front of `l` (case-sensitive). -/
def dropLit : Str → Str → Option Str
  | [], l => some l
  | _ :: _, [] => none
  | p :: ps, c :: cs => if c == p then dropLit ps cs else none

/-- Consume the literal `p` (given in lowercase) from the front of `l`,
comparing case-insensitively. -/
def ciDropLit : Str → Str → Option Str
  | [], l => some l
  | _ :: _, [] => none
  | p :: ps, c :: cs => if c.toLower == p then ciDropLit ps cs else none

/-- Python `str.splitlines()` (handling `\n`, `\r\n` and `\r`;
no trailing empty line for a trailing terminator). -/
def splitlinesGo : Str → Str → List Str
  | acc, [] => if acc.isEmpty then [] else [acc.reverse]
  | acc, '\n' :: rest => acc.reverse :: splitlinesGo [] rest
  | acc, '\r' :: '\n' :: rest => acc.reverse :: splitlinesGo [] rest
  | acc, '\r' :: rest => acc.reverse :: splitlinesGo [] rest
  | acc, c :: rest => splitlinesGo (c :: acc) rest

def splitlines (s : Str) : List Str := splitlinesGo [] s

/-! ## Input validator (`validate_industry`) -/

def msgEmpty : Str := "Industry name cannot be empty.".toList

def msgTooShort : Str := "Industry name too short.".toList

def msgTooLong : Str := "Industry name too long (max 100 characters).".toList

def msgSusp : Str := "Invalid characters detected.".toList

/-- The denylist `suspicious` of `validate_industry`. -/
def suspiciousList : List Str :=
  ["<script".toList, "javascript:".toList, "onclick=".toList, "--".toList]

/-- Embedding of `validate_industry` (`armaanstreamlit.py`, lines 19-36).
The input is `Option Str`: `none` models Python `None` (falsy, so the
short-circuiting `not user_input or user_input.strip() == ""` returns the
empty-input failure without evaluating `.strip()`). -/
def validate_industry (user_input : Option Str) : Bool × Option Str × Option Str :=
  match user_input with
  | none => (false, none, some msgEmpty)
  | some s =>
    if s.isEmpty || (pyStrip s).isEmpty then (false, none, some msgEmpty)
    else if (pyStrip s).length < 2 then (false, none, some msgTooShort)
    else if (pyStrip s).length > 100 then (false, none, some msgTooLong)
    else if suspiciousList.any
        (fun p => containsSub (lowerStr p) (lowerStr (pyStrip s))) then
      (false, none, some msgSusp)
    else (true, some (pyStrip s), none)

/-! ## Word counter (`count_words_like_word`) -/

/-- Split `l` at the first occurrence of `stop`: returns the (possibly
empty) run before it and the remainder after it; `none` if `stop` does
not occur. -/
def splitAtChar (stop : Char) : Str → Option (Str × Str)
  | [] => none
  | c :: cs =>
    if c == stop then some ([], cs)
    else
      match splitAtChar stop cs with
      | some (a, b) => some (c :: a, b)
      | none => none

/-- One attempt of the markdown-link pattern `\[([^\]]+)\]\([^)]+\)` at
the head of the input.  The character classes exclude their own closing
delimiter, so greedy matching is deterministic: the label runs to the
first `]`, the target to the first `)`.  Returns the label and the
remainder after the match. -/
def mdTryMatch : Str → Option (Str × Str)
  | '[' :: rest =>
    match splitAtChar ']' rest with
    | some (label, rest2) =>
      if label.isEmpty then none
      else
        match rest2 with
        | '(' :: rest3 =>
          match splitAtChar ')' rest3 with
          | some (tgt, rest4) => if tgt.isEmpty then none else some (label, rest4)
          | none => none
        | _ => none
    | none => none
  | _ => none

/-- `re.sub(r"\[([^\]]+)\]\([^)]+\)", r"\1", text)`: left-to-right scan,
replacing each match by its label.  Fuel-driven; `fuel = length` always
suffices. -/
def mdSubGo : Nat → Str → Str
  | 0, l => l
  | _ + 1, [] => []
  | n + 1, c :: cs =>
    match mdTryMatch (c :: cs) with
    | some (label, rest) => label ++ mdSubGo n rest
    | none => c :: mdSubGo n cs

def mdSub (l : Str) : Str := mdSubGo l.length l

def httpLit : Str := "http".toList

/-- One attempt of `https?://\S+` at the head of the input: the literal
scheme (trying `s://` before `://`, which are mutually exclusive) then a
nonempty greedy run of non-whitespace.  Returns the remainder after the
match. -/
def urlTryMatch (l : Str) : Option Str :=
  match dropLit httpLit l with
  | none => none
  | some r1 =>
    match (match dropLit ("s://".toList) r1 with
           | some x => some x
           | none => dropLit ("://".toList) r1) with
    | none => none
    | some r3 =>
      match r3 with
      | [] => none
      | c :: _ =>
        if pyIsSpace c then none
        else some (r3.dropWhile (fun d => !pyIsSpace d))

/-- `re.sub(r"https?://\S+", "URL", text)`. -/
def urlSubGo : Nat → Str → Str
  | 0, l => l
  | _ + 1, [] => []
  | n + 1, c :: cs =>
    match urlTryMatch (c :: cs) with
    | some rest => 'U' :: 'R' :: 'L' :: urlSubGo n rest
    | none => c :: urlSubGo n cs

def urlSub (l : Str) : Str := urlSubGo l.length l

def isAlnumA (c : Char) : Bool :=
  ('A' ≤ c && c ≤ 'Z') || ('a' ≤ c && c ≤ 'z') || ('0' ≤ c && c ≤ '9')

/-- The compound tail `(?:[-'][A-Za-z0-9]+)*` of the token pattern:
repeatedly consume a hyphen or apostrophe followed by a nonempty
alphanumeric run.  Returns the remainder. -/
def tokTailGo : Nat → Str → Str
  | 0, l => l
  | _ + 1, [] => []
  | n + 1, c :: cs =>
    match cs with
    | d :: rest =>
      if (c == '-' || c == Char.ofNat 39) && isAlnumA d then
        tokTailGo n ((d :: rest).dropWhile isAlnumA)
      else c :: cs
    | [] => c :: cs

def tokTail (l : Str) : Str := tokTailGo l.length l

/-- `len(re.findall(r"[A-Za-z0-9]+(?:[-'][A-Za-z0-9]+)*", text))`:
count left-to-right non-overlapping matches of the token pattern. -/
def countTokensGo : Nat → Str → Nat
  | 0, _ => 0
  | _ + 1, [] => 0
  | n + 1, c :: cs =>
    if isAlnumA c then
      1 + countTokensGo n (tokTail ((c :: cs).dropWhile isAlnumA))
    else countTokensGo n cs

def countTokens (l : Str) : Nat := countTokensGo l.length l

/-- Embedding of `count_words_like_word` (`armaanstreamlit.py`,
lines 39-52).  `none` models Python `None` (falsy). -/
def count_words_like_word (text : Option Str) : Nat :=
  match text with
  | none => 0
  | some t =>
    if t.isEmpty then 0
    else countTokens (urlSub (mdSub t))

/-! ## Report sanitizer (`clean_report_text`)

The three `re.sub` calls use flags `(?im)`: `^` matches at the string
start and after every `\n`; `$` matches at the string end and before any
`\n`; `\s` may cross line boundaries; `.` never matches `\n`.  Matching
is case-insensitive for the first two patterns only.  For each pattern
the greedy backtracking search is deterministic, as realised by the
scanners below; the scan continues after each match on the *original*
text (replacements are never re-examined within one `sub`). -/

/-- Optional `s?` after a label, case-insensitively. -/
def optS : Str → Str
  | c :: cs => if c.toLower == 's' then cs else c :: cs
  | [] => []

/-- The alternation `(sources?|references?)`, case-insensitive
(the two branches start with distinct letters, so the choice is
deterministic). -/
def labelSplit (r : Str) : Option Str :=
  match ciDropLit ("source".toList) r with
  | some r2 => some (optS r2)
  | none =>
    match ciDropLit ("reference".toList) r with
    | some r2 => some (optS r2)
    | none => none

/-- One attempt of `(?im)^\s*(sources?|references?)\s*:\s*.*$` at a
line-start position: greedy `\s*` runs (which may cross newlines), the
label, a colon, then `.*` up to the next newline or the end (`$` then
always holds).  Returns the remainder after the match. -/
def tryMatch1 (l : Str) : Option Str :=
  match labelSplit (l.dropWhile pyIsSpace) with
  | none => none
  | some r2 =>
    match r2.dropWhile pyIsSpace with
    | ':' :: r4 => some ((r4.dropWhile pyIsSpace).dropWhile (fun c => c != '\n'))
    | _ => none

/-- `re.sub(r"(?im)^\s*(sources?|references?)\s*:\s*.*$", "", text)`.
The flag records whether the scanner stands at a `^` position (string
start or just after `\n`); a regex-1 match always ends with a non-newline
character or at the end, so the continuation flag is `false`. -/
def sub1Go : Nat → Bool → Str → Str
  | 0, _, l => l
  | _ + 1, _, [] => []
  | n + 1, atStart, c :: cs =>
    if atStart then
      match tryMatch1 (c :: cs) with
      | some rest => sub1Go n false rest
      | none => c :: sub1Go n (c == '\n') cs
    else c :: sub1Go n (c == '\n') cs

def sub1 (l : Str) : Str := sub1Go l.length true l

/-- Mirror of `sub1Go` recording whether any line-start position of the
input matches regex 1 (i.e. whether `sub1` removes anything). -/
def hasMatch1Go : Nat → Bool → Str → Bool
  | 0, _, _ => false
  | _ + 1, _, [] => false
  | n + 1, atStart, c :: cs =>
    (atStart && (tryMatch1 (c :: cs)).isSome) || hasMatch1Go n (c == '\n') cs

def hasMatch1 (l : Str) : Bool := hasMatch1Go l.length true l

/-- The optional index marker `(\[\d+\]|\d+\.?)?` of regex 2.  When the
alternatives fail, the group matches the empty string and the scan
continues at `l` itself (no other backtracking of the group can make the
rest of the pattern succeed, since the following `\s*https?` cannot start
with `[`, a digit, or `.`). -/
def idxParse (l : Str) : Str :=
  match l with
  | '[' :: r =>
    if (r.takeWhile Char.isDigit).isEmpty then l
    else
      match r.dropWhile Char.isDigit with
      | ']' :: r3 => r3
      | _ => l
  | c :: _ =>
    if c.isDigit then
      match l.dropWhile Char.isDigit with
      | '.' :: r3 => r3
      | r2 => r2
    else l
  | [] => l

/-- Case-insensitive `https?://` at the head of the input (regex 2 runs
under `(?i)`). -/
def schemeSplitCI (l : Str) : Option Str :=
  match ciDropLit httpLit l with
  | none => none
  | some r1 =>
    match ciDropLit ("s://".toList) r1 with
    | some x => some x
    | none => ciDropLit ("://".toList) r1

/-- Index (from position 0) of the last `\n` in `l`, if any. -/
def lastNLIdxGo : Str → Nat → Option Nat
  | [], _ => none
  | c :: cs, i =>
    match lastNLIdxGo cs (i + 1) with
    | some j => some j
    | none => if c == '\n' then some i else none

def lastNLIdx (l : Str) : Option Nat := lastNLIdxGo l 0

/-- One attempt of `(?im)^\s*(\[\d+\]|\d+\.?)?\s*https?://\S+\s*$` at a
line-start position.  After the greedy `\S+`, the trailing `\s*$` must
end at the string end or just before a `\n`; greedy backtracking picks
the longest whitespace prefix whose successor is a `\n` (no such
position: the whole attempt fails — shrinking `\S+` or the index group
can never help, as the character exposed would be non-whitespace).
Returns the remainder and whether the last consumed character was `\n`
(i.e. whether the continuation stands at a `^` position). -/
def tryMatch2 (l : Str) : Option (Str × Bool) :=
  match schemeSplitCI ((idxParse (l.dropWhile pyIsSpace)).dropWhile pyIsSpace) with
  | none => none
  | some r4 =>
    match r4 with
    | [] => none
    | c :: _ =>
      if pyIsSpace c then none
      else
        let r5 := r4.dropWhile (fun d => !pyIsSpace d)
        let wsRun := r5.takeWhile pyIsSpace
        let after := r5.dropWhile pyIsSpace
        if after.isEmpty then some ([], false)
        else
          match lastNLIdx wsRun with
          | none => none
          | some i =>
            some (wsRun.drop i ++ after, decide ((wsRun.take i).getLast? = some '\n'))

/-- `re.sub(r"(?im)^\s*(\[\d+\]|\d+\.?)?\s*https?://\S+\s*$", "", text)`. -/
def sub2Go : Nat → Bool → Str → Str
  | 0, _, l => l
  | _ + 1, _, [] => []
  | n + 1, atStart, c :: cs =>
    if atStart then
      match tryMatch2 (c :: cs) with
      | some (rest, flag) => sub2Go n flag rest
      | none => c :: sub2Go n (c == '\n') cs
    else c :: sub2Go n (c == '\n') cs

def sub2 (l : Str) : Str := sub2Go l.length true l

/-- `re.sub(r"https?://\S+", "", text)` (case-sensitive, unanchored). -/
def urlRemoveGo : Nat → Str → Str
  | 0, l => l
  | _ + 1, [] => []
  | n + 1, c :: cs =>
    match urlTryMatch (c :: cs) with
    | some rest => urlRemoveGo n rest
    | none => c :: urlRemoveGo n cs

def urlRemove (l : Str) : Str := urlRemoveGo l.length l

/-- `re.sub(r"\n{3,}", "\n\n", text)`: each maximal run of three or more
newlines becomes exactly two. -/
def collapseGo : Nat → Str → Str
  | 0, l => l
  | _ + 1, [] => []
  | n + 1, c :: cs =>
    if c == '\n' then
      (if 3 ≤ ((c :: cs).takeWhile (fun d => d == '\n')).length then ['\n', '\n']
       else (c :: cs).takeWhile (fun d => d == '\n')) ++
        collapseGo n ((c :: cs).dropWhile (fun d => d == '\n'))
    else c :: collapseGo n cs

def collapseNL (l : Str) : Str := collapseGo l.length l

/-- Embedding of `clean_report_text` (`armaanstreamlit.py`, lines 55-74):
remove sources/references label lines, standalone URL lines, and inline
URLs, then collapse blank-line runs and strip the ends. -/
def clean_report_text (text : Str) : Str :=
  if text.isEmpty then []
  else pyStrip (collapseNL (urlRemove (sub2 (sub1 text))))

/-- True when some suffix of `l` begins with `http://` or `https://`
followed by at least one non-whitespace character — exactly the
occurrences that the pattern `https?://\S+` can match. -/
def hasLiveURL : Str → Bool
  | [] => false
  | c :: cs => (urlTryMatch (c :: cs)).isSome || hasLiveURL cs

/-! ## Link extractor (`get_wikipedia_urls`)

The network calls are opaque: the extractor is modelled as a function of
the two model-response texts.  The pattern
`https?://[^\s\)]+wikipedia\.org[^\s\)\,]*` is deterministic up to the
greedy `[^\s\)]+`, which backtracks to the *last* position inside the
maximal class-A run at which the literal `wikipedia.org` matches with at
least one class-A character before it (the literal's characters all lie
in class A, so the literal can only match inside that run). -/

def wikiLit : Str := "wikipedia.org".toList

/-- The class `[^\s\)]` (before the domain literal). -/
def classA (c : Char) : Bool := !pyIsSpace c && c != ')'

/-- The class `[^\s\)\,]` (after the domain literal). -/
def classB (c : Char) : Bool := !pyIsSpace c && c != ')' && c != ','

/-- The characters stripped by `.rstrip(".,;:")`. -/
def rstripSet : Str := ".,;:".toList

/-- The case-sensitive scheme `https?://`: matched scheme and remainder. -/
def schemeSplit (l : Str) : Option (Str × Str) :=
  match dropLit ("https://".toList) l with
  | some r => some ("https://".toList, r)
  | none =>
    match dropLit ("http://".toList) l with
    | some r => some ("http://".toList, r)
    | none => none

/-- Largest index `i ≥ 1` (counting from the initial accumulator) at
which `wikiLit` is a prefix of the corresponding suffix. -/
def lastLitIdxGo : Str → Nat → Option Nat
  | [], _ => none
  | c :: cs, i =>
    match lastLitIdxGo cs (i + 1) with
    | some j => some j
    | none => if 1 ≤ i && isPrefixL wikiLit (c :: cs) then some i else none

def lastLitIdx (run : Str) : Option Nat := lastLitIdxGo run 0

/-- One attempt of `https?://[^\s\)]+wikipedia\.org[^\s\)\,]*` at the
head of the input: scheme, then the greedy pre-literal run (at least one
character), the literal, and the greedy class-B tail.  Returns the
matched string and the remainder. -/
def wikiTryMatch (l : Str) : Option (Str × Str) :=
  match schemeSplit l with
  | none => none
  | some (sch, r) =>
    match lastLitIdx (r.takeWhile classA) with
    | none => none
    | some a =>
      some (sch ++ (r.takeWhile classA).take a ++ wikiLit ++
              ((r.takeWhile classA).drop (a + wikiLit.length)).takeWhile classB,
            ((r.takeWhile classA).drop (a + wikiLit.length)).dropWhile classB ++
              r.dropWhile classA)

/-- `re.search`: the first match of the wiki pattern, scanning positions
left to right. -/
def searchWiki : Str → Option Str
  | [] => none
  | c :: cs =>
    match wikiTryMatch (c :: cs) with
    | some (m, _) => some m
    | none => searchWiki cs

/-- First extraction pass of `get_wikipedia_urls` (lines 112-117): for
each line whose lowercased form contains `wikipedia.org`, the first
pattern match on that line, right-stripped of `.,;:`. -/
def extractPass (text : Str) : List Str :=
  (splitlines text).filterMap (fun line =>
    if containsSub (lowerStr wikiLit) (lowerStr line) then
      match searchWiki line with
      | some m => some (pyRStrip rstripSet m)
      | none => none
    else none)

/-- `re.findall` of the wiki pattern: all non-overlapping matches, left
to right (used on the fallback response, line 127). -/
def findAllWikiGo : Nat → Str → List Str
  | 0, _ => []
  | _ + 1, [] => []
  | n + 1, c :: cs =>
    match wikiTryMatch (c :: cs) with
    | some (m, rest) => m :: findAllWikiGo n rest
    | none => findAllWikiGo n cs

def findAllWiki (l : Str) : List Str := findAllWikiGo l.length l

/-- `url.split("#")[0].rstrip("/")`: the normalized form used for
deduplication. -/
def normalizeURL (url : Str) : Str :=
  pyRStrip ['/'] (url.takeWhile (fun c => c != '#'))

/-- Membership of a normalized form in the `seen` set. -/
def memStr (n : Str) (seen : List Str) : Bool := seen.any (fun s => s == n)

/-- The dedup-and-truncate loop of `get_wikipedia_urls` (lines 130-139):
`seen` holds the normalized forms already kept, `count` how many links
were kept; the loop breaks as soon as 5 links have been kept. -/
def dedupGo (seen : List Str) (count : Nat) : List Str → List Str
  | [] => []
  | url :: rest =>
    if !memStr (normalizeURL url) seen && containsSub wikiLit (normalizeURL url) then
      if count + 1 = 5 then [url]
      else url :: dedupGo (normalizeURL url :: seen) (count + 1) rest
    else dedupGo seen count rest

/-- The fallback condition (line 120): fewer than 5 entries from the
first pass, counted with duplicates. -/
def usesFallback (text : Str) : Bool := decide ((extractPass text).length < 5)

/-- All candidate links before deduplication: the first pass, plus —
exactly when it yielded fewer than 5 entries — the `re.findall` matches
over the fallback response, right-stripped (line 128; appended, not
replacing). -/
def wikiCandidates (text fbText : Str) : List Str :=
  if (extractPass text).length < 5 then
    extractPass text ++ (findAllWiki fbText).map (pyRStrip rstripSet)
  else extractPass text

/-- Embedding of the pure text-processing core of `get_wikipedia_urls`
(`armaanstreamlit.py`, lines 81-141), as a function of the two opaque
model-response texts. -/
def get_wikipedia_urls (text fbText : Str) : List Str :=
  (dedupGo [] 0 (wikiCandidates text fbText)).take 5

/-- Number of distinct normalized forms in a list of links (what C4
claims the fallback condition counts). -/
def distinctNormCount (urls : List Str) : Nat := (urls.map normalizeURL).dedup.length

/-- A response whose five lines all carry the same link: the first pass
extracts 5 entries (with duplicates), so no fallback is issued, although
only one distinct normalized link was found. -/
def c4Text : Str :=
  ("1. https://en.wikipedia.org/wiki/A\n2. https://en.wikipedia.org/wiki/A\n" ++
    "3. https://en.wikipedia.org/wiki/A\n4. https://en.wikipedia.org/wiki/A\n" ++
    "5. https://en.wikipedia.org/wiki/A").toList

/-- A response with three distinct links on three lines, in order. -/
def c6Text : Str :=
  ("1. https://en.wikipedia.org/wiki/Solar_power\n" ++
    "2. https://en.wikipedia.org/wiki/Wind_power\n" ++
    "see https://en.wikipedia.org/wiki/Hydropower").toList

/-- A line whose domain marker appears in uppercase: the case-insensitive
line filter accepts it, but the case-sensitive pattern finds no match. -/
def c7Line : Str := "see https://en.WIKIPEDIA.ORG/wiki/X now".toList

/-- A line with a lowercase-marker link followed by a period. -/
def c7GoodLine : Str := "see https://en.wikipedia.org/wiki/Solar_power. ok".toList

/-- Input showing the sanitizer is not idempotent: removing the inline
URL uncovers a sources label that only a second pass would delete. -/
def c1Bad : Str := "https://x Sources: foo".toList

/-- Input whose sanitized form still contains `http://` (the pattern
`https?://\S+` needs a non-whitespace character after the scheme, so a
bare `http://` survives) and still has a sources label line (uncovered
by URL removal). -/
def c2Bad : Str := "https://u Sources: http:// foo".toList

/-! ## Basic lemmas about the string utilities -/

theorem isPrefixL_length : ∀ p l : Str, isPrefixL p l = true → p.length ≤ l.length
  | [], _, _ => Nat.zero_le _
  | _ :: _, [], h => by simp [isPrefixL] at h
  | p :: ps, c :: cs, h => by
    simp only [isPrefixL, Bool.and_eq_true] at h
    simpa using isPrefixL_length ps cs h.2

theorem containsSub_length {n h : Str} (hc : containsSub n h = true) :
    n.length ≤ h.length := by
  induction h with
  | nil =>
    simp only [containsSub, List.isEmpty_iff] at hc
    simp [hc]
  | cons c cs ih =>
    simp only [containsSub, Bool.or_eq_true] at hc
    rcases hc with hc | hc
    · exact isPrefixL_length _ _ hc
    · exact Nat.le_succ_of_le (ih hc)

theorem length_lowerStr (s : Str) : (lowerStr s).length = s.length :=
  List.length_map _ _

theorem pyStrip_nil : pyStrip [] = [] := rfl

/-! ## Claims C3, C8, C9, C10 -/

/-- An input of trimmed length 101 containing the denylisted substring
`--` (so the claim's hypothesis holds with length above 100). -/
def c3Bad : Str := '-' :: '-' :: List.replicate 99 'a'

/-- C3 counterexample: the input `"--" ++ "a"*99` (length 101) contains
the denylisted substring `--`, yet `validate_industry` fails with the
too-long message, not the suspicious-content message: the length checks
run before the denylist check. -/
theorem c3_counterexample_long_suspicious :
    containsSub ("--".toList) (lowerStr (pyStrip c3Bad)) = true ∧
      validate_industry (some c3Bad) = (false, none, some msgTooLong) ∧
      msgTooLong ≠ msgSusp := by
  refine ⟨by decide, by decide, by decide⟩

/-- C3 (amended): for every input whose lowercased trimmed form contains
a denylisted substring, *provided the trimmed length is at most 100*,
the validator fails with the suspicious-content error.  (Trimmed length
below 2 is impossible when a denylisted substring is present, but lengths
above 100 fail with the too-long error instead.) -/
theorem c3_suspicious_rejected_within_length (s : Str)
    (hsusp : suspiciousList.any
      (fun p => containsSub (lowerStr p) (lowerStr (pyStrip s))) = true)
    (hlen : (pyStrip s).length ≤ 100) :
    validate_industry (some s) = (false, none, some msgSusp) := by
  have h2 : 2 ≤ (pyStrip s).length := by
    rw [List.any_eq_true] at hsusp
    obtain ⟨p, hp, hc⟩ := hsusp
    have hlen2 : 2 ≤ p.length := by
      simp only [suspiciousList, List.mem_cons, List.not_mem_nil, or_false] at hp
      rcases hp with rfl | rfl | rfl | rfl <;> decide
    have := containsSub_length hc
    rw [length_lowerStr, length_lowerStr] at this
    omega
  have hne : (pyStrip s).isEmpty = false := by
    rcases h : pyStrip s with _ | _ <;> simp [h] at h2 ⊢
  have hsne : s.isEmpty = false := by
    rcases hs : s with _ | _
    · rw [hs] at h2; simp [pyStrip_nil] at h2
    · rfl
  simp only [validate_industry, hne, hsne, Bool.or_self, Bool.false_eq_true,
    if_false, hsusp, if_true]
  rw [if_neg (by omega), if_neg (by omega)]

/-- C3 witness: the input `"a--b"` (trimmed length 4) is rejected with
the suspicious-content message. -/
theorem c3_witness :
    (suspiciousList.any
        (fun p => containsSub (lowerStr p) (lowerStr (pyStrip ("a--b".toList)))) = true ∧
      (pyStrip ("a--b".toList)).length ≤ 100) ∧
      validate_industry (some ("a--b".toList)) = (false, none, some msgSusp) :=
  ⟨⟨by decide, by decide⟩,
    c3_suspicious_rejected_within_length ("a--b".toList) (by decide) (by decide)⟩

/-- C8: for every input whose trimmed form has length between 2 and 100
and triggers no denylist entry, the validator succeeds and returns
exactly the trimmed input. -/
theorem c8_valid_input_returns_trimmed (s : Str)
    (h2 : 2 ≤ (pyStrip s).length) (h100 : (pyStrip s).length ≤ 100)
    (hsusp : suspiciousList.any
      (fun p => containsSub (lowerStr p) (lowerStr (pyStrip s))) = false) :
    validate_industry (some s) = (true, some (pyStrip s), none) := by
  have hne : (pyStrip s).isEmpty = false := by
    rcases h : pyStrip s with _ | _ <;> simp [h] at h2 ⊢
  have hsne : s.isEmpty = false := by
    rcases hs : s with _ | _
    · rw [hs] at h2; simp [pyStrip_nil] at h2
    · rfl
  simp only [validate_industry, hne, hsne, Bool.or_self, Bool.false_eq_true,
    if_false]
  rw [if_neg (by omega), if_neg (by omega), if_neg (by simp [hsusp])]

/-- C8 witness: `validate_industry "  Renewable Energy  "` succeeds and
returns `"Renewable Energy"` (case and internal whitespace preserved). -/
theorem c8_witness :
    (2 ≤ (pyStrip ("  Renewable Energy  ".toList)).length ∧
      (pyStrip ("  Renewable Energy  ".toList)).length ≤ 100 ∧
      suspiciousList.any (fun p => containsSub (lowerStr p)
        (lowerStr (pyStrip ("  Renewable Energy  ".toList)))) = false) ∧
      validate_industry (some ("  Renewable Energy  ".toList)) =
        (true, some ("Renewable Energy".toList), none) := by
  refine ⟨⟨by decide, by decide, by decide⟩, ?_⟩
  have h := c8_valid_input_returns_trimmed ("  Renewable Energy  ".toList)
    (by decide) (by decide) (by decide)
  rw [h]; decide

/-- C9: the word counter folds markdown links to their label
(`count_words "[OpenAI](https://openai.com) is great." = 3`), counts
hyphen/apostrophe compounds once (`count_words "state-of-the-art don't"
= 2`), and returns 0 on the empty string and on `None`. -/
theorem c9_count_words_examples :
    count_words_like_word (some ("[OpenAI](https://openai.com) is great.".toList)) = 3 ∧
      count_words_like_word (some ("state-of-the-art don't".toList)) = 2 ∧
      count_words_like_word (some []) = 0 ∧
      count_words_like_word none = 0 := by
  refine ⟨by decide, by decide, by decide, by decide⟩

/-- C10: a `None` input makes the validator return the empty-input
failure (no exception is modelled: the embedding is a total function,
mirroring the short-circuit `not user_input or ...`), exactly as for the
empty string and a whitespace-only string. -/
theorem c10_none_input_empty_error :
    validate_industry none = (false, none, some msgEmpty) ∧
      validate_industry none = validate_industry (some []) ∧
      validate_industry none = validate_industry (some ("   ".toList)) := by
  refine ⟨by decide, by decide, by decide⟩

/-- C1 counterexample: `sanitize (sanitize x) ≠ sanitize x` for
`x = "https://x Sources: foo"`: the first pass yields
`"Sources: foo"`, the second pass deletes that label line entirely. -/
theorem c1_counterexample_not_idempotent :
    clean_report_text (clean_report_text c1Bad) ≠ clean_report_text c1Bad ∧
      clean_report_text c1Bad = "Sources: foo".toList ∧
      clean_report_text (clean_report_text c1Bad) = [] := by
  refine ⟨by decide, by decide, by decide⟩

/-- C2 counterexample: sanitizing `"https://u Sources: http:// foo"`
yields `"Sources: http:// foo"`, which contains the substring `http://`
and begins with a sources label. -/
theorem c2_counterexample_live_scheme :
    clean_report_text c2Bad = "Sources: http:// foo".toList ∧
      containsSub ("http://".toList) (clean_report_text c2Bad) = true ∧
      isPrefixL ("Sources:".toList) (clean_report_text c2Bad) = true := by
  refine ⟨by decide, by decide, by decide⟩

/-! ## Lemmas about the dedup-and-truncate loop -/

theorem memStr_iff {n : Str} {seen : List Str} : memStr n seen = true ↔ n ∈ seen := by
  simp [memStr]

theorem dedupGo_sublist : ∀ (seen : List Str) (count : Nat) (l : List Str),
    List.Sublist (dedupGo seen count l) l
  | _, _, [] => List.Sublist.refl _
  | seen, count, url :: rest => by
    simp only [dedupGo]
    rcases hb : (!memStr (normalizeURL url) seen &&
        containsSub wikiLit (normalizeURL url)) with _ | _
    · simp only [Bool.false_eq_true, if_false]
      exact (dedupGo_sublist seen count rest).cons url
    · simp only [if_true]
      by_cases h5 : count + 1 = 5
      · rw [if_pos h5]
        exact (List.nil_sublist rest).cons₂ url
      · rw [if_neg h5]
        exact (dedupGo_sublist _ _ rest).cons₂ url

theorem dedupGo_marker : ∀ (seen : List Str) (count : Nat) (l : List Str) (u : Str),
    u ∈ dedupGo seen count l → containsSub wikiLit (normalizeURL u) = true
  | _, _, [], _, h => by simp [dedupGo] at h
  | seen, count, url :: rest, u, h => by
    simp only [dedupGo] at h
    rcases hb : (!memStr (normalizeURL url) seen &&
        containsSub wikiLit (normalizeURL url)) with _ | _
    · rw [hb] at h
      simp only [Bool.false_eq_true, if_false] at h
      exact dedupGo_marker seen count rest u h
    · rw [hb] at h
      simp only [if_true] at h
      have hc : containsSub wikiLit (normalizeURL url) = true :=
        (Bool.and_eq_true _ _ |>.mp hb).2
      by_cases h5 : count + 1 = 5
      · rw [if_pos h5] at h
        simp only [List.mem_singleton] at h
        exact h ▸ hc
      · rw [if_neg h5] at h
        rcases List.mem_cons.mp h with rfl | h
        · exact hc
        · exact dedupGo_marker _ _ rest u h

theorem dedupGo_fresh : ∀ (seen : List Str) (count : Nat) (l : List Str) (u : Str),
    u ∈ dedupGo seen count l → memStr (normalizeURL u) seen = false
  | _, _, [], _, h => by simp [dedupGo] at h
  | seen, count, url :: rest, u, h => by
    simp only [dedupGo] at h
    rcases hb : (!memStr (normalizeURL url) seen &&
        containsSub wikiLit (normalizeURL url)) with _ | _
    · rw [hb] at h
      simp only [Bool.false_eq_true, if_false] at h
      exact dedupGo_fresh seen count rest u h
    · rw [hb] at h
      simp only [if_true] at h
      have hm : memStr (normalizeURL url) seen = false := by
        have := (Bool.and_eq_true _ _ |>.mp hb).1
        simpa using this
      by_cases h5 : count + 1 = 5
      · rw [if_pos h5] at h
        simp only [List.mem_singleton] at h
        exact h ▸ hm
      · rw [if_neg h5] at h
        rcases List.mem_cons.mp h with rfl | h
        · exact hm
        · have := dedupGo_fresh _ _ rest u h
          simp only [memStr, List.any_cons, Bool.or_eq_false_iff] at this
          exact (by simpa [memStr] using this.2)

theorem dedupGo_pairwise : ∀ (seen : List Str) (count : Nat) (l : List Str),
    List.Pairwise (fun a b => normalizeURL a ≠ normalizeURL b) (dedupGo seen count l)
  | _, _, [] => List.Pairwise.nil
  | seen, count, url :: rest => by
    simp only [dedupGo]
    rcases hb : (!memStr (normalizeURL url) seen &&
        containsSub wikiLit (normalizeURL url)) with _ | _
    · simp only [Bool.false_eq_true, if_false]
      exact dedupGo_pairwise seen count rest
    · simp only [if_true]
      by_cases h5 : count + 1 = 5
      · rw [if_pos h5]
        exact List.pairwise_singleton _ _
      · rw [if_neg h5]
        refine List.pairwise_cons.mpr ⟨fun v hv => ?_, dedupGo_pairwise _ _ rest⟩
        have := dedupGo_fresh _ _ rest v hv
        simp only [memStr, List.any_cons, Bool.or_eq_false_iff] at this
        have h1 := this.1
        intro hEq
        rw [hEq] at h1
        simp at h1

/-! ## Claims C4, C5, C6 -/

/-- C4 counterexample: for the five-duplicate response `c4Text`, only 1
distinct normalized link is found (fewer than 5), yet no fallback call is
issued — the code tests `len(urls) < 5` on the raw match list, before
deduplication. -/
theorem c4_counterexample_duplicates_no_fallback :
    usesFallback c4Text = false ∧ distinctNormCount (extractPass c4Text) = 1 := by
  refine ⟨by decide, by decide⟩

/-- C4 (amended): the single fallback call is issued exactly when the
first pass produced fewer than 5 matches *counted with duplicates*
(before normalization); when at least 5 raw matches exist the result
does not depend on the fallback response at all, and when the fallback
runs its matches are appended to the first-pass list, not replacing
it. -/
theorem c4_fallback_on_raw_count (text fb1 fb2 : Str) :
    (5 ≤ (extractPass text).length →
      get_wikipedia_urls text fb1 = get_wikipedia_urls text fb2) ∧
    ((extractPass text).length < 5 →
      wikiCandidates text fb1 =
        extractPass text ++ (findAllWiki fb1).map (pyRStrip rstripSet)) := by
  constructor
  · intro h
    unfold get_wikipedia_urls wikiCandidates
    rw [if_neg (by omega), if_neg (by omega)]
  · intro h
    unfold wikiCandidates
    rw [if_pos h]

/-- C4 witness: with five raw matches (`c4Text`) the result is the same
for two different fallback responses; with three (`c6Text`) the
candidate list is the first pass plus the fallback matches. -/
theorem c4_witness :
    (5 ≤ (extractPass c4Text).length ∧ (extractPass c6Text).length < 5) ∧
      get_wikipedia_urls c4Text ("alpha".toList) =
        get_wikipedia_urls c4Text ("beta".toList) ∧
      wikiCandidates c6Text ("alpha".toList) =
        extractPass c6Text ++ (findAllWiki ("alpha".toList)).map (pyRStrip rstripSet) :=
  ⟨⟨by decide, by decide⟩,
    (c4_fallback_on_raw_count c4Text ("alpha".toList) ("beta".toList)).1 (by decide),
    (c4_fallback_on_raw_count c6Text ("alpha".toList) ("beta".toList)).2 (by decide)⟩

/-- C5: for every pair of response texts, the extractor returns at most
5 entries, no two returned entries share a normalized form, every
returned entry's normalized form contains `wikipedia.org`, and every
returned entry is one of the original matched strings (not its
normalized form). -/
theorem c5_extractor_invariants (text fb : Str) :
    (get_wikipedia_urls text fb).length ≤ 5 ∧
      List.Pairwise (fun a b => normalizeURL a ≠ normalizeURL b)
        (get_wikipedia_urls text fb) ∧
      (∀ u ∈ get_wikipedia_urls text fb,
        containsSub wikiLit (normalizeURL u) = true) ∧
      (∀ u ∈ get_wikipedia_urls text fb, u ∈ wikiCandidates text fb) := by
  refine ⟨List.length_take_le _ _, ?_, fun u hu => ?_, fun u hu => ?_⟩
  · exact (dedupGo_pairwise [] 0 _).sublist (List.take_sublist _ _)
  · exact dedupGo_marker [] 0 _ u ((List.take_sublist _ _).subset hu)
  · exact (dedupGo_sublist [] 0 _).subset ((List.take_sublist _ _).subset hu)

/-- C5 witness: the invariants instantiated on `c6Text` with an empty
fallback response, checked on the first returned entry. -/
theorem c5_witness :
    ("https://en.wikipedia.org/wiki/Solar_power".toList ∈
        get_wikipedia_urls c6Text [] ∧ (get_wikipedia_urls c6Text []).length ≤ 5) ∧
      containsSub wikiLit
        (normalizeURL ("https://en.wikipedia.org/wiki/Solar_power".toList)) = true :=
  ⟨⟨by decide, (c5_extractor_invariants c6Text []).1⟩,
    (c5_extractor_invariants c6Text []).2.2.1 _ (by decide)⟩

/-- C6: the returned sequence is a sublist of the candidate list, which
lists matches line by line in order of appearance (so first-seen order is
preserved); concretely, three links on lines L1, L2, L3 are returned in
exactly that order. -/
theorem c6_order_preserved :
    (∀ text fb : Str,
      List.Sublist (get_wikipedia_urls text fb) (wikiCandidates text fb)) ∧
      get_wikipedia_urls c6Text [] =
        ["https://en.wikipedia.org/wiki/Solar_power".toList,
          "https://en.wikipedia.org/wiki/Wind_power".toList,
          "https://en.wikipedia.org/wiki/Hydropower".toList] := by
  refine ⟨fun text fb => (List.take_sublist _ _).trans (dedupGo_sublist _ _ _), ?_⟩
  decide

/-! ## Prefix, substring and strip lemmas -/

theorem dropWhile_head_false (p : Char → Bool) :
    ∀ (l : Str) (d : Char) (ds : Str), List.dropWhile p l = d :: ds → p d = false := by
  intro l
  induction l with
  | nil => intro d ds h; simp at h
  | cons c cs ih =>
    intro d ds h
    rw [List.dropWhile_cons] at h
    by_cases hc : p c = true
    · rw [if_pos hc] at h
      exact ih d ds h
    · rw [if_neg hc] at h
      cases h
      exact Bool.eq_false_iff.mpr hc

theorem isPrefixL_self_append : ∀ (p t : Str), isPrefixL p (p ++ t) = true
  | [], _ => rfl
  | c :: cs, t => by
    simp only [List.cons_append, isPrefixL, Bool.and_eq_true, beq_self_eq_true]
    exact ⟨trivial, isPrefixL_self_append cs t⟩

theorem isPrefixL_exists : ∀ (p l : Str), isPrefixL p l = true → ∃ t, l = p ++ t
  | [], l, _ => ⟨l, rfl⟩
  | _ :: _, [], h => by simp [isPrefixL] at h
  | p :: ps, c :: cs, h => by
    simp only [isPrefixL, Bool.and_eq_true, beq_iff_eq] at h
    obtain ⟨t, ht⟩ := isPrefixL_exists ps cs h.2
    exact ⟨t, by rw [h.1, ht]; rfl⟩

theorem containsSub_of_prefixL {p l : Str} (h : isPrefixL p l = true) :
    containsSub p l = true := by
  cases l with
  | nil =>
    cases p with
    | nil => rfl
    | cons c cs => simp [isPrefixL] at h
  | cons c cs => simp [containsSub, h]

theorem containsSub_append_left {p z : Str} (h : containsSub p z = true) :
    ∀ a : Str, containsSub p (a ++ z) = true := by
  intro a
  induction a with
  | nil => exact h
  | cons c cs ih => simp [containsSub, ih]

theorem pyRStrip_prefix (P s : Str) : ∃ d, s = pyRStrip P s ++ d := by
  refine ⟨(s.reverse.takeWhile (fun c => P.contains c)).reverse, ?_⟩
  unfold pyRStrip
  rw [← List.reverse_append, List.takeWhile_append_dropWhile, List.reverse_reverse]

theorem pyRStrip_getLast_not (P s : Str) :
    ∀ c, (pyRStrip P s).getLast? = some c → P.contains c = false := by
  intro c h
  unfold pyRStrip at h
  rw [List.getLast?_reverse] at h
  cases hd : List.dropWhile (fun c => P.contains c) s.reverse with
  | nil => rw [hd] at h; simp at h
  | cons d ds =>
    rw [hd] at h
    simp only [List.head?_cons, Option.some.injEq] at h
    subst h
    exact dropWhile_head_false _ _ _ _ hd

theorem dropWhile_append_head_false (f : Char → Bool) (b : Str)
    (hb : ∀ d ds, b = d :: ds → f d = false) :
    ∀ a : Str, List.dropWhile f (a ++ b) = List.dropWhile f a ++ b := by
  intro a
  induction a with
  | nil =>
    simp only [List.nil_append, List.dropWhile_nil]
    cases hb2 : b with
    | nil => simp
    | cons d ds =>
      rw [List.dropWhile_cons, if_neg (by simp [hb d ds hb2])]
  | cons c cs ih =>
    simp only [List.cons_append, List.dropWhile_cons]
    by_cases hc : f c = true
    · rw [if_pos hc, if_pos hc, ih]
    · rw [if_neg hc, if_neg hc, List.cons_append]

theorem pyRStrip_append (P base tail : Str) (g : Char) (grest : Str)
    (hrev : base.reverse = g :: grest) (hg : P.contains g = false) :
    pyRStrip P (base ++ tail) = base ++ pyRStrip P tail := by
  unfold pyRStrip
  rw [List.reverse_append]
  rw [dropWhile_append_head_false _ _ (fun d ds h => by
    rw [hrev] at h; cases h; exact hg)]
  rw [List.reverse_append, List.reverse_reverse]

/-! ## Shape of a wiki-pattern match (claim C7) -/

theorem schemeSplit_shape {l : Str} {sch r : Str}
    (h : schemeSplit l = some (sch, r)) :
    sch = "http://".toList ∨ sch = "https://".toList := by
  unfold schemeSplit at h
  cases h1 : dropLit ("https://".toList) l with
  | some x => rw [h1] at h; cases h; exact Or.inr rfl
  | none =>
    rw [h1] at h
    cases h2 : dropLit ("http://".toList) l with
    | some x => rw [h2] at h; cases h; exact Or.inl rfl
    | none => rw [h2] at h; cases h

theorem wikiTryMatch_shape {l m r : Str} (h : wikiTryMatch l = some (m, r)) :
    ∃ sch pre tail, m = sch ++ pre ++ wikiLit ++ tail ∧
      (sch = "http://".toList ∨ sch = "https://".toList) ∧
      (∀ c ∈ pre, classA c = true) ∧ (∀ c ∈ tail, classB c = true) := by
  unfold wikiTryMatch at h
  split at h
  · exact Option.noConfusion h
  next sch r0 hs =>
    split at h
    · exact Option.noConfusion h
    next a ha =>
      simp only [Option.some.injEq, Prod.mk.injEq] at h
      refine ⟨sch, (r0.takeWhile classA).take a,
        ((r0.takeWhile classA).drop (a + wikiLit.length)).takeWhile classB,
        ?_, schemeSplit_shape hs, ?_, ?_⟩
      · rw [← h.1]
      · intro c hc
        exact List.mem_takeWhile_imp (List.mem_of_mem_take hc)
      · intro c hc
        exact List.mem_takeWhile_imp hc

theorem searchWiki_some : ∀ (line m : Str), searchWiki line = some m →
    ∃ s r, wikiTryMatch s = some (m, r)
  | [], m, h => by simp [searchWiki] at h
  | c :: cs, m, h => by
    unfold searchWiki at h
    split at h
    next m1 r1 hw =>
      simp only [Option.some.injEq] at h
      subst h
      exact ⟨c :: cs, r1, hw⟩
    next hw => exact searchWiki_some cs m h

theorem classA_of_classB {c : Char} (h : classB c = true) : classA c = true := by
  unfold classB at h
  unfold classA
  exact (Bool.and_eq_true _ _ |>.mp h).1

theorem classA_mem_http : ∀ c ∈ ("http://".toList), classA c = true := by
  intro c hc
  fin_cases hc <;> decide

theorem classA_mem_https : ∀ c ∈ ("https://".toList), classA c = true := by
  intro c hc
  fin_cases hc <;> decide

theorem classA_mem_wikiLit : ∀ c ∈ wikiLit, classA c = true := by
  intro c hc
  have h : wikiLit.all classA = true := by decide
  rw [List.all_eq_true] at h
  exact h c hc

/-! ## Claim C7 -/

/-- C7 counterexample: the line `see https://en.WIKIPEDIA.ORG/wiki/X now`
contains the domain marker case-insensitively (so the line filter accepts
it), but the case-sensitive pattern captures nothing on it, so the URL
with an upper-case marker is *not* extracted. -/
theorem c7_counterexample_uppercase_marker :
    containsSub (lowerStr wikiLit) (lowerStr c7Line) = true ∧
      searchWiki c7Line = none ∧ extractPass c7Line = [] := by
  refine ⟨by decide, by decide, by decide⟩

/-- C7 (amended): whatever the pattern captures on a line (the captured
string is then right-stripped of `.,;:` before being stored) begins with
`http://` or `https://`, contains the *lowercase* domain marker
`wikipedia.org`, consists only of non-whitespace non-`)` characters, and
does not end in one of `.,;:`.  A URL whose marker appears only in upper
or mixed case is never captured, because the pattern is case-sensitive
while the line filter is case-insensitive. -/
theorem c7_match_characterization (line m : Str)
    (h : searchWiki line = some m) :
    (isPrefixL ("http://".toList) (pyRStrip rstripSet m) = true ∨
      isPrefixL ("https://".toList) (pyRStrip rstripSet m) = true) ∧
      containsSub wikiLit (pyRStrip rstripSet m) = true ∧
      (∀ c ∈ pyRStrip rstripSet m, classA c = true) ∧
      (∀ c, (pyRStrip rstripSet m).getLast? = some c →
        rstripSet.contains c = false) := by
  obtain ⟨s, r, hw⟩ := searchWiki_some line m h
  obtain ⟨sch, pre, tail, hm, hsch, hpre, htail⟩ := wikiTryMatch_shape hw
  have hbase : m = (sch ++ pre ++ wikiLit) ++ tail := hm
  have hrev : (sch ++ pre ++ wikiLit).reverse =
      'g' :: ("ro.aidepikiw".toList ++ (sch ++ pre).reverse) := by
    rw [List.reverse_append]
    rfl
  have hsplit : pyRStrip rstripSet m =
      (sch ++ pre ++ wikiLit) ++ pyRStrip rstripSet tail := by
    rw [hbase]
    exact pyRStrip_append _ _ _ _ _ hrev (by decide)
  refine ⟨?_, ?_, ?_, pyRStrip_getLast_not _ _⟩
  · rcases hsch with hsch | hsch
    · left
      rw [hsplit, hsch]
      simp only [List.append_assoc]
      exact isPrefixL_self_append _ _
    · right
      rw [hsplit, hsch]
      simp only [List.append_assoc]
      exact isPrefixL_self_append _ _
  · rw [hsplit]
    have : (sch ++ pre ++ wikiLit) ++ pyRStrip rstripSet tail =
        (sch ++ pre) ++ (wikiLit ++ pyRStrip rstripSet tail) := by
      simp [List.append_assoc]
    rw [this]
    exact containsSub_append_left
      (containsSub_of_prefixL (isPrefixL_self_append _ _)) _
  · intro c hc
    rw [hsplit] at hc
    rcases List.mem_append.mp hc with hc | hc
    · rcases List.mem_append.mp hc with hc | hc
      · rcases List.mem_append.mp hc with hc | hc
        · rcases hsch with hsch | hsch
          · rw [hsch] at hc
            exact classA_mem_http c hc
          · rw [hsch] at hc
            exact classA_mem_https c hc
        · exact hpre c hc
      · exact classA_mem_wikiLit c hc
    · obtain ⟨d, hd⟩ := pyRStrip_prefix rstripSet tail
      have : c ∈ tail := by rw [hd]; exact List.mem_append_left _ hc
      exact classA_of_classB (htail c this)

/-- C7 witness: on the line `see https://en.wikipedia.org/wiki/Solar_power. ok`
the pattern captures `https://en.wikipedia.org/wiki/Solar_power.`, whose
stored (right-stripped) form satisfies the characterization. -/
theorem c7_witness :
    (isPrefixL ("http://".toList)
        (pyRStrip rstripSet ("https://en.wikipedia.org/wiki/Solar_power.".toList)) = true ∨
      isPrefixL ("https://".toList)
        (pyRStrip rstripSet ("https://en.wikipedia.org/wiki/Solar_power.".toList)) = true) ∧
      containsSub wikiLit
        (pyRStrip rstripSet ("https://en.wikipedia.org/wiki/Solar_power.".toList)) = true ∧
      (∀ c ∈ pyRStrip rstripSet ("https://en.wikipedia.org/wiki/Solar_power.".toList),
        classA c = true) ∧
      (∀ c, (pyRStrip rstripSet
          ("https://en.wikipedia.org/wiki/Solar_power.".toList)).getLast? = some c →
        rstripSet.contains c = false) :=
  c7_match_characterization c7GoodLine
    ("https://en.wikipedia.org/wiki/Solar_power.".toList) (by decide)

/-! ## Live URLs survive no pass of `re.sub(r"https?://\S+", ...)` -/

theorem dropLit_some : ∀ (p l r : Str), dropLit p l = some r → l = p ++ r
  | [], l, r, h => by
    simp only [dropLit, Option.some.injEq] at h
    rw [h]; rfl
  | _ :: _, [], r, h => by simp [dropLit] at h
  | p :: ps, c :: cs, r, h => by
    simp only [dropLit] at h
    by_cases hc : (c == p) = true
    · rw [if_pos hc] at h
      have := dropLit_some ps cs r h
      rw [List.cons_append, ← this, beq_iff_eq.mp hc]
    · rw [if_neg hc] at h
      cases h

theorem dropLit_self : ∀ (p r : Str), dropLit p (p ++ r) = some r
  | [], r => rfl
  | c :: cs, r => by
    simp only [List.cons_append, dropLit, beq_self_eq_true, if_true]
    exact dropLit_self cs r

theorem length_dropWhile_le (p : Char → Bool) :
    ∀ l : Str, (l.dropWhile p).length ≤ l.length := by
  intro l
  induction l with
  | nil => simp
  | cons c cs ih =>
    rw [List.dropWhile_cons]
    by_cases hc : p c = true
    · rw [if_pos hc]
      exact Nat.le_succ_of_le ih
    · rw [if_neg hc]

theorem urlTryMatch_shape {l r : Str} (h : urlTryMatch l = some r) :
    ∃ p x t, l = p ++ x :: t ∧
      (p = "http://".toList ∨ p = "https://".toList) ∧ pyIsSpace x = false ∧
      r = (x :: t).dropWhile (fun d => !pyIsSpace d) := by
  unfold urlTryMatch at h
  split at h
  · exact Option.noConfusion h
  next r1 h1 =>
    split at h
    · exact Option.noConfusion h
    next r3 h3 =>
      split at h
      · exact Option.noConfusion h
      next x t =>
        split at h
        · exact Option.noConfusion h
        next hx =>
          simp only [Option.some.injEq] at h
          have hl : l = httpLit ++ r1 := dropLit_some _ _ _ h1
          split at h3
          next h4 =>
            have hr1 : r1 = "s://".toList ++ x :: t := by
              cases h3
              exact dropLit_some _ _ _ h4
            refine ⟨"https://".toList, x, t, ?_, Or.inr rfl,
              Bool.eq_false_iff.mpr hx, h.symm⟩
            rw [hl, hr1]
            rfl
          next h4 =>
            have hr1 : r1 = "://".toList ++ x :: t := dropLit_some _ _ _ h3
            refine ⟨"http://".toList, x, t, ?_, Or.inl rfl,
              Bool.eq_false_iff.mpr hx, h.symm⟩
            rw [hl, hr1]
            rfl

theorem urlTryMatch_some_of {p : Str} {x : Char} {t : Str}
    (hp : p = "http://".toList ∨ p = "https://".toList)
    (hx : pyIsSpace x = false) :
    urlTryMatch (p ++ x :: t) =
      some ((x :: t).dropWhile (fun d => !pyIsSpace d)) := by
  rcases hp with rfl | rfl
  · show (if pyIsSpace x = true then none
      else some ((x :: t).dropWhile (fun d => !pyIsSpace d))) = _
    rw [hx]
    simp
  · show (if pyIsSpace x = true then none
      else some ((x :: t).dropWhile (fun d => !pyIsSpace d))) = _
    rw [hx]
    simp

theorem urlTryMatch_rest_space {l r : Str} (h : urlTryMatch l = some r) :
    (r = [] ∨ ∃ d ds, r = d :: ds ∧ pyIsSpace d = true) ∧ r.length < l.length := by
  obtain ⟨p, x, t, hl, hp, hx, hr⟩ := urlTryMatch_shape h
  constructor
  · cases hrr : r with
    | nil => exact Or.inl rfl
    | cons d ds =>
      refine Or.inr ⟨d, ds, rfl, ?_⟩
      rw [hrr] at hr
      have := dropWhile_head_false _ _ _ _ hr.symm
      simpa using this
  · have h1 : r.length ≤ t.length + 1 := by
      rw [hr]
      exact length_dropWhile_le _ (x :: t)
    have h2 : l.length = p.length + (t.length + 1) := by
      rw [hl, List.length_append]
      simp
    have h3 : 7 ≤ p.length := by
      rcases hp with rfl | rfl <;> decide
    omega

theorem hasLive_cons (c : Char) (cs : Str) :
    hasLiveURL (c :: cs) = ((urlTryMatch (c :: cs)).isSome || hasLiveURL cs) := rfl

theorem hasLive_tail_false {c : Char} {cs : Str}
    (h : hasLiveURL (c :: cs) = false) :
    (urlTryMatch (c :: cs)).isSome = false ∧ hasLiveURL cs = false := by
  rw [hasLive_cons] at h
  exact Bool.or_eq_false_iff.mp h

theorem hasLive_append_false_right : ∀ {a b : Str},
    hasLiveURL (a ++ b) = false → hasLiveURL b = false := by
  intro a
  induction a with
  | nil => exact fun h => h
  | cons c cs ih =>
    intro b h
    rw [List.cons_append] at h
    exact ih (hasLive_tail_false h).2

theorem hasLive_append_left_true {z : Str} (h : hasLiveURL z = true) :
    ∀ a : Str, hasLiveURL (a ++ z) = true := by
  intro a
  induction a with
  | nil => exact h
  | cons c cs ih =>
    rw [List.cons_append, hasLive_cons, ih, Bool.or_true]

theorem hasLive_append_right_true : ∀ {m : Str}, hasLiveURL m = true →
    ∀ b : Str, hasLiveURL (m ++ b) = true := by
  intro m
  induction m with
  | nil => intro h; cases h
  | cons c cs ih =>
    intro h b
    rw [hasLive_cons, Bool.or_eq_true] at h
    rcases h with h | h
    · obtain ⟨r, hr⟩ := Option.isSome_iff_exists.mp h
      obtain ⟨p, x, t, hl, hp, hx, _⟩ := urlTryMatch_shape hr
      have : (c :: cs) ++ b = p ++ x :: (t ++ b) := by
        rw [hl]; simp
      rw [List.cons_append] at this ⊢
      rw [hasLive_cons, this, urlTryMatch_some_of hp hx]
      rfl
    · rw [List.cons_append, hasLive_cons, ih h b, Bool.or_true]

theorem urlRemoveGo_prefixL : ∀ (fuel : Nat) (p l : Str),
    (∀ a ∈ p, pyIsSpace a = false) →
    isPrefixL p (urlRemoveGo fuel l) = true → isPrefixL p l = true := by
  intro fuel
  induction fuel with
  | zero => exact fun p l _ h => h
  | succ n ih =>
    intro p l hp h
    cases l with
    | nil => exact h
    | cons c cs =>
      rw [urlRemoveGo] at h
      cases hu : urlTryMatch (c :: cs) with
      | some rest =>
        rw [hu] at h
        cases p with
        | nil => rfl
        | cons b ps =>
          have hpre := ih _ _ hp h
          have hb : pyIsSpace b = false := hp b (List.mem_cons_self b ps)
          rcases (urlTryMatch_rest_space hu).1 with hrest | ⟨d, ds, hrest, hd⟩
          · rw [hrest] at hpre
            simp [isPrefixL] at hpre
          · rw [hrest] at hpre
            simp only [isPrefixL, Bool.and_eq_true, beq_iff_eq] at hpre
            rw [hpre.1] at hb
            rw [hb] at hd
            cases hd
      | none =>
        rw [hu] at h
        cases p with
        | nil => rfl
        | cons b ps =>
          simp only [isPrefixL, Bool.and_eq_true] at h ⊢
          exact ⟨h.1, ih _ _ (fun a ha => hp a (List.mem_cons_of_mem _ ha)) h.2⟩


theorem nonspace_mem_ttp : ∀ a ∈ ("ttp://".toList : Str), pyIsSpace a = false := by
  intro a ha
  have h : ("ttp://".toList : Str).all (fun d => !pyIsSpace d) = true := by decide
  rw [List.all_eq_true] at h
  simpa using h a ha

theorem nonspace_mem_ttps : ∀ a ∈ ("ttps://".toList : Str), pyIsSpace a = false := by
  intro a ha
  have h : ("ttps://".toList : Str).all (fun d => !pyIsSpace d) = true := by decide
  rw [List.all_eq_true] at h
  simpa using h a ha

/-- If the scanner's transformed tail `R` only reveals non-whitespace
prefixes that were already prefixes of the original tail `cs` (the
`hscan` hypothesis), then a failed URL attempt at `c :: cs` stays failed
at `c :: R`. -/
theorem urlTryMatch_none_transfer {c : Char} {cs : Str} (R : Str)
    (hscan : ∀ p, (∀ a ∈ p, pyIsSpace a = false) →
      isPrefixL p R = true → isPrefixL p cs = true)
    (hu : urlTryMatch (c :: cs) = none) :
    (urlTryMatch (c :: R)).isSome = false := by
  cases hm : urlTryMatch (c :: R) with
  | none => rfl
  | some r =>
    exfalso
    obtain ⟨p, x, t, hl, hp, hx, _⟩ := urlTryMatch_shape hm
    rcases hp with rfl | rfl
    · rw [show ("http://".toList : Str) ++ x :: t =
        'h' :: ("ttp://".toList ++ x :: t) from rfl] at hl
      injection hl with hc hR
      have hq : isPrefixL ("ttp://".toList ++ [x]) R = true := by
        rw [hR, show ("ttp://".toList ++ x :: t : Str) =
          ("ttp://".toList ++ [x]) ++ t by simp]
        exact isPrefixL_self_append _ _
      have hall : ∀ a ∈ ("ttp://".toList ++ [x] : Str), pyIsSpace a = false := by
        intro a ha
        rcases List.mem_append.mp ha with ha | ha
        · exact nonspace_mem_ttp a ha
        · rw [List.mem_singleton.mp ha]; exact hx
      obtain ⟨t2, ht2⟩ := isPrefixL_exists _ _ (hscan _ hall hq)
      have hcs : c :: cs = "http://".toList ++ x :: t2 := by
        rw [ht2, hc]
        rw [show (("ttp://".toList ++ [x]) ++ t2 : Str) =
          "ttp://".toList ++ x :: t2 by simp]
        rfl
      rw [hcs, urlTryMatch_some_of (Or.inl rfl) hx] at hu
      cases hu
    · rw [show ("https://".toList : Str) ++ x :: t =
        'h' :: ("ttps://".toList ++ x :: t) from rfl] at hl
      injection hl with hc hR
      have hq : isPrefixL ("ttps://".toList ++ [x]) R = true := by
        rw [hR, show ("ttps://".toList ++ x :: t : Str) =
          ("ttps://".toList ++ [x]) ++ t by simp]
        exact isPrefixL_self_append _ _
      have hall : ∀ a ∈ ("ttps://".toList ++ [x] : Str), pyIsSpace a = false := by
        intro a ha
        rcases List.mem_append.mp ha with ha | ha
        · exact nonspace_mem_ttps a ha
        · rw [List.mem_singleton.mp ha]; exact hx
      obtain ⟨t2, ht2⟩ := isPrefixL_exists _ _ (hscan _ hall hq)
      have hcs : c :: cs = "https://".toList ++ x :: t2 := by
        rw [ht2, hc]
        rw [show (("ttps://".toList ++ [x]) ++ t2 : Str) =
          "ttps://".toList ++ x :: t2 by simp]
        rfl
      rw [hcs, urlTryMatch_some_of (Or.inr rfl) hx] at hu
      cases hu

/-- The third sanitizer pass removes every live URL: its output never
contains `http://` or `https://` followed by a non-whitespace
character. -/
theorem hasLive_urlRemoveGo : ∀ (fuel : Nat) (l : Str), l.length ≤ fuel →
    hasLiveURL (urlRemoveGo fuel l) = false := by
  intro fuel
  induction fuel with
  | zero =>
    intro l hl
    have : l = [] := List.length_eq_zero.mp (Nat.le_zero.mp hl)
    subst this
    rfl
  | succ n ih =>
    intro l hl
    cases l with
    | nil => rfl
    | cons c cs =>
      rw [urlRemoveGo]
      cases hu : urlTryMatch (c :: cs) with
      | some rest =>
        have hrest := (urlTryMatch_rest_space hu).2
        simp only [List.length_cons] at hl hrest
        exact ih rest (by omega)
      | none =>
        rw [hasLive_cons]
        have hcs : hasLiveURL (urlRemoveGo n cs) = false := by
          simp only [List.length_cons] at hl
          exact ih cs (by omega)
        have hnone := urlTryMatch_none_transfer (urlRemoveGo n cs)
          (fun p hp hpre => urlRemoveGo_prefixL n p cs hp hpre) hu
        rw [hnone, hcs]
        rfl

theorem collapseGo_prefixL : ∀ (fuel : Nat) (p l : Str),
    (∀ a ∈ p, pyIsSpace a = false) →
    isPrefixL p (collapseGo fuel l) = true → isPrefixL p l = true := by
  intro fuel
  induction fuel with
  | zero => exact fun p l _ h => h
  | succ n ih =>
    intro p l hp h
    cases l with
    | nil => exact h
    | cons c cs =>
      rw [collapseGo] at h
      by_cases hc : (c == '\n') = true
      · rw [if_pos hc] at h
        cases p with
        | nil => rfl
        | cons b ps =>
          exfalso
          have hb : pyIsSpace b = false := hp b (List.mem_cons_self b ps)
          by_cases h3 : 3 ≤ ((c :: cs).takeWhile (fun d => d == '\n')).length
          · rw [if_pos h3] at h
            simp only [List.cons_append, isPrefixL, Bool.and_eq_true, beq_iff_eq] at h
            rw [h.1] at hb
            exact absurd hb (by decide)
          · have htw : (c :: cs).takeWhile (fun d => d == '\n') =
                c :: cs.takeWhile (fun d => d == '\n') := by
              rw [List.takeWhile_cons, if_pos hc]
            rw [if_neg h3, htw] at h
            simp only [List.cons_append, isPrefixL, Bool.and_eq_true, beq_iff_eq] at h
            rw [h.1, beq_iff_eq.mp hc] at hb
            exact absurd hb (by decide)
      · rw [if_neg hc] at h
        cases p with
        | nil => rfl
        | cons b ps =>
          simp only [isPrefixL, Bool.and_eq_true] at h ⊢
          exact ⟨h.1, ih ps cs (fun a ha => hp a (List.mem_cons_of_mem _ ha)) h.2⟩

theorem hasLive_nl_cons (cs : Str) : hasLiveURL ('\n' :: cs) = hasLiveURL cs := rfl

theorem hasLive_nlblock_append : ∀ (block z : Str), (∀ a ∈ block, a = '\n') →
    hasLiveURL (block ++ z) = hasLiveURL z := by
  intro block
  induction block with
  | nil => intro z _; rfl
  | cons b bs ih =>
    intro z hb
    rw [List.cons_append, hb b (List.mem_cons_self b bs), hasLive_nl_cons]
    exact ih z (fun a ha => hb a (List.mem_cons_of_mem _ ha))

theorem hasLive_collapseGo : ∀ (fuel : Nat) (l : Str), l.length ≤ fuel →
    hasLiveURL l = false → hasLiveURL (collapseGo fuel l) = false := by
  intro fuel
  induction fuel with
  | zero => exact fun l _ h => h
  | succ n ih =>
    intro l hl h
    cases l with
    | nil => exact h
    | cons c cs =>
      rw [collapseGo]
      by_cases hc : (c == '\n') = true
      · rw [if_pos hc]
        have hdec := List.takeWhile_append_dropWhile (fun d => d == '\n') (c :: cs)
        have hrest : hasLiveURL ((c :: cs).dropWhile (fun d => d == '\n')) = false :=
          hasLive_append_false_right (by rw [hdec]; exact h)
        have hlen : ((c :: cs).dropWhile (fun d => d == '\n')).length ≤ n := by
          have h1 : ((c :: cs).takeWhile (fun d => d == '\n')).length +
              ((c :: cs).dropWhile (fun d => d == '\n')).length = (c :: cs).length := by
            rw [← List.length_append, hdec]
          have htw : (c :: cs).takeWhile (fun d => d == '\n') =
              c :: cs.takeWhile (fun d => d == '\n') := by
            rw [List.takeWhile_cons, if_pos hc]
          rw [htw] at h1
          simp only [List.length_cons] at hl h1
          omega
        have hz := ih _ hlen hrest
        by_cases h3 : 3 ≤ ((c :: cs).takeWhile (fun d => d == '\n')).length
        · rw [if_pos h3,
            hasLive_nlblock_append _ _ (by intro a ha; simpa using ha)]
          exact hz
        · rw [if_neg h3, hasLive_nlblock_append _ _ ?_]
          · exact hz
          · intro a ha
            have h4 := List.mem_takeWhile_imp ha
            simpa using h4
      · rw [if_neg hc]
        have hcomp := hasLive_tail_false h
        have hcs : hasLiveURL (collapseGo n cs) = false := by
          simp only [List.length_cons] at hl
          exact ih cs (by omega) hcomp.2
        have hu : urlTryMatch (c :: cs) = none := by
          cases hm : urlTryMatch (c :: cs) with
          | none => rfl
          | some r =>
            have := hcomp.1
            rw [hm] at this
            cases this
        have htrans := urlTryMatch_none_transfer (collapseGo n cs)
          (fun p hp hpre => collapseGo_prefixL n p cs hp hpre) hu
        rw [hasLive_cons, htrans, hcs]
        rfl

theorem pyStrip_infix (l : Str) : ∃ a b, l = a ++ pyStrip l ++ b := by
  refine ⟨l.takeWhile pyIsSpace,
    ((l.dropWhile pyIsSpace).reverse.takeWhile pyIsSpace).reverse, ?_⟩
  have h1 : pyStrip l ++
      ((l.dropWhile pyIsSpace).reverse.takeWhile pyIsSpace).reverse =
        l.dropWhile pyIsSpace := by
    unfold pyStrip
    rw [← List.reverse_append, List.takeWhile_append_dropWhile, List.reverse_reverse]
  rw [List.append_assoc, h1, List.takeWhile_append_dropWhile]

theorem hasLive_pyStrip {l : Str} (h : hasLiveURL l = false) :
    hasLiveURL (pyStrip l) = false := by
  cases hm : hasLiveURL (pyStrip l) with
  | false => rfl
  | true =>
    exfalso
    obtain ⟨a, b, hab⟩ := pyStrip_infix l
    have h2 := hasLive_append_left_true (hasLive_append_right_true hm b) a
    rw [← List.append_assoc, ← hab] at h2
    rw [h2] at h
    cases h

/-! ## Claim C2 -/

/-- C2 (amended): for every input string, the sanitized report contains
no occurrence of `http://` or `https://` followed by a non-whitespace
character (no live URL — exactly what the removal pattern
`https?://\S+` can match).  A bare scheme such as `http://` followed by
whitespace can survive, and URL removal can uncover a sources label
line, so the claim's stronger wording fails (see the counterexample). -/
theorem c2_no_live_url_after_sanitize (x : Str) :
    hasLiveURL (clean_report_text x) = false := by
  unfold clean_report_text
  by_cases hx : x.isEmpty = true
  · rw [if_pos hx]
    rfl
  · rw [if_neg hx]
    have h1 : hasLiveURL (urlRemove (sub2 (sub1 x))) = false := by
      unfold urlRemove
      exact hasLive_urlRemoveGo _ _ (Nat.le_refl _)
    have h2 : hasLiveURL (collapseNL (urlRemove (sub2 (sub1 x)))) = false := by
      unfold collapseNL
      exact hasLive_collapseGo _ _ (Nat.le_refl _) h1
    exact hasLive_pyStrip h2

/-! ## Identity lemmas for the sanitizer passes (claim C1) -/

theorem isPrefixL_append_right : ∀ {p l : Str}, isPrefixL p l = true →
    ∀ b : Str, isPrefixL p (l ++ b) = true
  | [], _, _, _ => rfl
  | _ :: _, [], h, _ => by simp [isPrefixL] at h
  | p :: ps, c :: cs, h, b => by
    simp only [isPrefixL, Bool.and_eq_true] at h
    simp only [List.cons_append, isPrefixL, Bool.and_eq_true]
    exact ⟨h.1, isPrefixL_append_right h.2 b⟩

theorem containsSub_append_right_true : ∀ {m : Str}, ∀ {p : Str},
    containsSub p m = true → ∀ b : Str, containsSub p (m ++ b) = true := by
  intro m
  induction m with
  | nil =>
    intro p h b
    simp only [containsSub, List.isEmpty_iff] at h
    subst h
    cases b with
    | nil => rfl
    | cons x xs => simp [containsSub, isPrefixL]
  | cons c cs ih =>
    intro p h b
    rw [containsSub, Bool.or_eq_true] at h
    rw [List.cons_append, containsSub, Bool.or_eq_true]
    rcases h with h | h
    · exact Or.inl (by rw [← List.cons_append]; exact isPrefixL_append_right h b)
    · exact Or.inr (ih h b)

theorem containsSub_false_tail {p : Str} {c : Char} {cs : Str}
    (h : containsSub p (c :: cs) = false) : containsSub p cs = false := by
  rw [containsSub] at h
  exact (Bool.or_eq_false_iff.mp h).2

theorem containsSub_pyStrip_false {p v : Str} (h : containsSub p v = false) :
    containsSub p (pyStrip v) = false := by
  cases hm : containsSub p (pyStrip v) with
  | false => rfl
  | true =>
    exfalso
    obtain ⟨a, b, hab⟩ := pyStrip_infix v
    have h2 := containsSub_append_left (containsSub_append_right_true hm b) a
    rw [← List.append_assoc, ← hab] at h2
    rw [h2] at h
    cases h

theorem sub1Go_id : ∀ (fuel : Nat) (st : Bool) (l : Str),
    hasMatch1Go fuel st l = false → sub1Go fuel st l = l := by
  intro fuel
  induction fuel with
  | zero => intro st l _; rfl
  | succ n ih =>
    intro st l h
    cases l with
    | nil => rfl
    | cons c cs =>
      rw [hasMatch1Go, Bool.or_eq_false_iff] at h
      rw [sub1Go]
      cases st with
      | false =>
        simp only [Bool.false_eq_true, if_false]
        rw [ih _ _ h.2]
      | true =>
        simp only [if_true]
        cases ht : tryMatch1 (c :: cs) with
        | some rest =>
          have := h.1
          rw [ht] at this
          simp at this
        | none => rw [ih _ _ h.2]

theorem ciDropLit_some : ∀ (p s r : Str), ciDropLit p s = some r →
    isPrefixL p (lowerStr s) = true
  | [], _, _, _ => rfl
  | _ :: _, [], _, h => by simp [ciDropLit] at h
  | p :: ps, c :: cs, r, h => by
    simp only [ciDropLit] at h
    by_cases hc : (c.toLower == p) = true
    · rw [if_pos hc] at h
      simp only [lowerStr, List.map_cons, isPrefixL, Bool.and_eq_true]
      refine ⟨?_, ciDropLit_some ps cs r h⟩
      rw [beq_iff_eq] at hc ⊢
      exact hc.symm
    · rw [if_neg hc] at h
      cases h

theorem schemeSplitCI_some {s : Str} {r : Str} (h : schemeSplitCI s = some r) :
    isPrefixL httpLit (lowerStr s) = true := by
  unfold schemeSplitCI at h
  cases h1 : ciDropLit httpLit s with
  | none => rw [h1] at h; cases h
  | some r1 =>
    have := ciDropLit_some httpLit s r1 h1
    exact this

theorem dropWhile_suffix (p : Char → Bool) (l : Str) :
    ∃ a, l = a ++ l.dropWhile p :=
  ⟨l.takeWhile p, (List.takeWhile_append_dropWhile _ _).symm⟩

theorem idxParse_suffix : ∀ l : Str, ∃ a, l = a ++ idxParse l := by
  intro l
  unfold idxParse
  split
  next r =>
    by_cases hemp : (r.takeWhile Char.isDigit).isEmpty = true
    · rw [if_pos hemp]
      exact ⟨[], rfl⟩
    · rw [if_neg hemp]
      split
      next r3 heq =>
        refine ⟨'[' :: r.takeWhile Char.isDigit ++ [']'], ?_⟩
        have hr : r = r.takeWhile Char.isDigit ++ (']' :: r3) := by
          rw [← heq, List.takeWhile_append_dropWhile]
        conv_lhs => rw [hr]
        simp
      next => exact ⟨[], rfl⟩
  next c cs hnotbr =>
    by_cases hdig : c.isDigit = true
    · rw [if_pos hdig]
      split
      next r3 heq =>
        refine ⟨(c :: cs).takeWhile Char.isDigit ++ ['.'], ?_⟩
        have hr : c :: cs = (c :: cs).takeWhile Char.isDigit ++ ('.' :: r3) := by
          rw [← heq, List.takeWhile_append_dropWhile]
        conv_lhs => rw [hr]
        simp
      next heq =>
        exact dropWhile_suffix Char.isDigit (c :: cs)
    · rw [if_neg hdig]
      exact ⟨[], rfl⟩
  next => exact ⟨[], rfl⟩

theorem suffix_trans {l m s : Str} (h1 : ∃ a, l = a ++ m) (h2 : ∃ b, m = b ++ s) :
    ∃ c, l = c ++ s := by
  obtain ⟨a, ha⟩ := h1
  obtain ⟨b, hb⟩ := h2
  exact ⟨a ++ b, by rw [ha, hb, List.append_assoc]⟩

theorem tryMatch2_contains {l : Str} {pr : Str × Bool} (h : tryMatch2 l = some pr) :
    containsSub httpLit (lowerStr l) = true := by
  unfold tryMatch2 at h
  split at h
  · exact Option.noConfusion h
  next r4 hs =>
    have hpre := schemeSplitCI_some hs
    obtain ⟨c, hc⟩ : ∃ c, l = c ++
        ((idxParse (l.dropWhile pyIsSpace)).dropWhile pyIsSpace) :=
      suffix_trans (dropWhile_suffix pyIsSpace l)
        (suffix_trans (idxParse_suffix (l.dropWhile pyIsSpace))
          (dropWhile_suffix pyIsSpace (idxParse (l.dropWhile pyIsSpace))))
    rw [hc]
    have hmap : lowerStr (c ++ ((idxParse (l.dropWhile pyIsSpace)).dropWhile pyIsSpace)) =
        lowerStr c ++ lowerStr ((idxParse (l.dropWhile pyIsSpace)).dropWhile pyIsSpace) :=
      List.map_append _ _ _
    rw [hmap]
    exact containsSub_append_left (containsSub_of_prefixL hpre) _

theorem sub2Go_id : ∀ (fuel : Nat) (st : Bool) (l : Str),
    containsSub httpLit (lowerStr l) = false → sub2Go fuel st l = l := by
  intro fuel
  induction fuel with
  | zero => intro st l _; rfl
  | succ n ih =>
    intro st l h
    cases l with
    | nil => rfl
    | cons c cs =>
      have hcons : containsSub httpLit (c.toLower :: lowerStr cs) = false := h
      have htail := containsSub_false_tail hcons
      rw [sub2Go]
      cases st with
      | false =>
        simp only [Bool.false_eq_true, if_false]
        rw [ih _ _ htail]
      | true =>
        simp only [if_true]
        cases ht : tryMatch2 (c :: cs) with
        | some pr =>
          exfalso
          have h2 := tryMatch2_contains ht
          rw [h2] at h
          cases h
        | none => rw [ih _ _ htail]

theorem lowerStr_isPrefixL : ∀ {p l : Str}, isPrefixL p l = true →
    isPrefixL (lowerStr p) (lowerStr l) = true
  | [], _, _ => rfl
  | _ :: _, [], h => by simp [isPrefixL] at h
  | p :: ps, c :: cs, h => by
    simp only [isPrefixL, Bool.and_eq_true, beq_iff_eq] at h
    simp only [lowerStr, List.map_cons, isPrefixL, Bool.and_eq_true, beq_iff_eq]
    exact ⟨by rw [h.1], lowerStr_isPrefixL h.2⟩

theorem urlTryMatch_contains {l r : Str} (h : urlTryMatch l = some r) :
    containsSub httpLit (lowerStr l) = true := by
  obtain ⟨p, x, t, hl, hp, _, _⟩ := urlTryMatch_shape h
  have hpref : isPrefixL httpLit l = true := by
    rcases hp with rfl | rfl
    · rw [hl]
      exact isPrefixL_append_right (by decide) _
    · rw [hl]
      exact isPrefixL_append_right (by decide) _
  have hlow := lowerStr_isPrefixL hpref
  rw [show lowerStr httpLit = httpLit by decide] at hlow
  exact containsSub_of_prefixL hlow

theorem urlRemoveGo_id : ∀ (fuel : Nat) (l : Str),
    containsSub httpLit (lowerStr l) = false → urlRemoveGo fuel l = l := by
  intro fuel
  induction fuel with
  | zero => intro l _; rfl
  | succ n ih =>
    intro l h
    cases l with
    | nil => rfl
    | cons c cs =>
      have hcons : containsSub httpLit (c.toLower :: lowerStr cs) = false := h
      have htail := containsSub_false_tail hcons
      rw [urlRemoveGo]
      cases ht : urlTryMatch (c :: cs) with
      | some r =>
        exfalso
        have h2 := urlTryMatch_contains ht
        rw [h2] at h
        cases h
      | none => rw [ih _ htail]

theorem beq_comm_false {a b : Char} (h : (a == b) = false) : (b == a) = false := by
  cases hb : (b == a) with
  | false => rfl
  | true =>
    have hba := beq_iff_eq.mp hb
    rw [hba] at h
    simp at h

theorem nl_run_three {run : Str} (hall : ∀ a ∈ run, a = '\n')
    (hlen : 3 ≤ run.length) : ∃ r', run = '\n' :: '\n' :: '\n' :: r' := by
  cases run with
  | nil => simp at hlen
  | cons a as =>
    cases as with
    | nil => simp at hlen
    | cons b bs =>
      cases bs with
      | nil => simp at hlen
      | cons d ds =>
        refine ⟨ds, ?_⟩
        rw [hall a (by simp), hall b (by simp), hall d (by simp)]

theorem collapseGo_id : ∀ (fuel : Nat) (l : Str),
    containsSub ['\n', '\n', '\n'] l = false → collapseGo fuel l = l := by
  intro fuel
  induction fuel with
  | zero => intro l _; rfl
  | succ n ih =>
    intro l h
    cases l with
    | nil => rfl
    | cons c cs =>
      rw [collapseGo]
      by_cases hc : (c == '\n') = true
      · rw [if_pos hc]
        have hdec := List.takeWhile_append_dropWhile (fun d => d == '\n') (c :: cs)
        have hrest : containsSub ['\n', '\n', '\n']
            ((c :: cs).dropWhile (fun d => d == '\n')) = false := by
          cases hm : containsSub ['\n', '\n', '\n']
              ((c :: cs).dropWhile (fun d => d == '\n')) with
          | false => rfl
          | true =>
            exfalso
            have h2 := containsSub_append_left hm
              ((c :: cs).takeWhile (fun d => d == '\n'))
            rw [hdec] at h2
            rw [h2] at h
            cases h
        by_cases h3 : 3 ≤ ((c :: cs).takeWhile (fun d => d == '\n')).length
        · exfalso
          have hallrun : ∀ a ∈ (c :: cs).takeWhile (fun d => d == '\n'), a = '\n' := by
            intro a ha
            have h4 := List.mem_takeWhile_imp ha
            simpa using h4
          obtain ⟨r', hrun⟩ := nl_run_three hallrun h3
          have hform : c :: cs = ['\n', '\n', '\n'] ++
              (r' ++ (c :: cs).dropWhile (fun d => d == '\n')) := by
            conv_lhs => rw [← hdec]
            rw [hrun]
            simp
          have hpre : isPrefixL ['\n', '\n', '\n'] (c :: cs) = true := by
            rw [hform]
            exact isPrefixL_self_append _ _
          rw [containsSub_of_prefixL hpre] at h
          cases h
        · rw [if_neg h3, ih _ hrest, hdec]
      · rw [if_neg hc]
        rw [ih _ (containsSub_false_tail h)]

theorem collapseGo_head_nl : ∀ (fuel : Nat) (m z : Str),
    collapseGo fuel m = '\n' :: z → ∃ ms, m = '\n' :: ms := by
  intro fuel m z h
  cases fuel with
  | zero => exact ⟨z, h⟩
  | succ n =>
    cases m with
    | nil => cases h
    | cons d ds =>
      by_cases hd : (d == '\n') = true
      · exact ⟨ds, by rw [beq_iff_eq.mp hd]⟩
      · rw [collapseGo, if_neg hd] at h
        injection h with h1 _
        rw [h1] at hd
        simp at hd

theorem contains_nl3_prepend (Z : Str)
    (hz : ∀ z0 zs, Z = z0 :: zs → (z0 == '\n') = false)
    (h : containsSub ['\n', '\n', '\n'] Z = false) :
    containsSub ['\n', '\n', '\n'] ('\n' :: Z) = false ∧
      containsSub ['\n', '\n', '\n'] ('\n' :: '\n' :: Z) = false := by
  cases Z with
  | nil => exact ⟨by decide, by decide⟩
  | cons z0 zs =>
    have hz0 : ('\n' == z0) = false := beq_comm_false (hz z0 zs rfl)
    have h1 : containsSub ['\n', '\n', '\n'] ('\n' :: z0 :: zs) = false := by
      rw [containsSub]
      have hp : isPrefixL ['\n', '\n', '\n'] ('\n' :: z0 :: zs) = false := by
        simp [isPrefixL, hz0]
      rw [hp, h]
      rfl
    refine ⟨h1, ?_⟩
    rw [containsSub]
    have hp2 : isPrefixL ['\n', '\n', '\n'] ('\n' :: '\n' :: z0 :: zs) = false := by
      simp [isPrefixL, hz0]
    rw [hp2, h1]
    rfl

theorem collapseGo_no3 : ∀ (fuel : Nat) (l : Str), l.length ≤ fuel →
    containsSub ['\n', '\n', '\n'] (collapseGo fuel l) = false := by
  intro fuel
  induction fuel with
  | zero =>
    intro l hl
    have hnil : l = [] := List.length_eq_zero.mp (Nat.le_zero.mp hl)
    subst hnil
    rfl
  | succ n ih =>
    intro l hl
    cases l with
    | nil => rfl
    | cons c cs =>
      rw [collapseGo]
      by_cases hc : (c == '\n') = true
      · have hceq : c = '\n' := beq_iff_eq.mp hc
        subst hceq
        rw [if_pos hc]
        have hdec := List.takeWhile_append_dropWhile (fun d => d == '\n') ('\n' :: cs)
        have hlen : (('\n' :: cs).dropWhile (fun d => d == '\n')).length ≤ n := by
          have h1 : (('\n' :: cs).takeWhile (fun d => d == '\n')).length +
              (('\n' :: cs).dropWhile (fun d => d == '\n')).length =
                ('\n' :: cs).length := by
            rw [← List.length_append, hdec]
          have htw : ('\n' :: cs).takeWhile (fun d => d == '\n') =
              '\n' :: cs.takeWhile (fun d => d == '\n') := by
            rw [List.takeWhile_cons, if_pos hc]
          rw [htw] at h1
          simp only [List.length_cons] at hl h1
          omega
        have hZ := ih _ hlen
        have hZhead : ∀ z0 zs,
            collapseGo n (('\n' :: cs).dropWhile (fun d => d == '\n')) = z0 :: zs →
            (z0 == '\n') = false := by
          intro z0 zs hzz
          cases hbe : (z0 == '\n') with
          | false => rfl
          | true =>
            exfalso
            rw [beq_iff_eq.mp hbe] at hzz
            obtain ⟨ms, hms⟩ := collapseGo_head_nl n _ _ hzz
            have h5 := dropWhile_head_false (fun d => d == '\n') ('\n' :: cs) _ _ hms
            simp at h5
        have hpre := contains_nl3_prepend _ hZhead hZ
        by_cases h3 : 3 ≤ (('\n' :: cs).takeWhile (fun d => d == '\n')).length
        · rw [if_pos h3]
          exact hpre.2
        · rw [if_neg h3]
          have hallrun : ∀ a ∈ ('\n' :: cs).takeWhile (fun d => d == '\n'),
              a = '\n' := by
            intro a ha
            have h4 := List.mem_takeWhile_imp ha
            simpa using h4
          have hrun_cons : ('\n' :: cs).takeWhile (fun d => d == '\n') =
              '\n' :: cs.takeWhile (fun d => d == '\n') := by
            rw [List.takeWhile_cons, if_pos hc]
          cases hr2 : cs.takeWhile (fun d => d == '\n') with
          | nil =>
            rw [hrun_cons, hr2]
            exact hpre.1
          | cons b bs =>
            cases hbs : bs with
            | nil =>
              have hb : b = '\n' := by
                apply hallrun
                rw [hrun_cons, hr2]
                simp
              rw [hrun_cons, hr2, hbs, hb]
              exact hpre.2
            | cons e es =>
              exfalso
              apply h3
              rw [hrun_cons, hr2, hbs]
              simp
      · rw [if_neg hc]
        have hZ := ih cs (by simp only [List.length_cons] at hl; omega)
        rw [containsSub]
        have hcf : ('\n' == c) = false := by
          apply beq_comm_false
          cases hbe : (c == '\n') with
          | false => rfl
          | true => exact absurd hbe hc
        have hp : isPrefixL ['\n', '\n', '\n'] (c :: collapseGo n cs) = false := by
          simp [isPrefixL, hcf]
        rw [hp, hZ]
        rfl

theorem dropWhile_dropWhile (p : Char → Bool) : ∀ l : Str,
    (l.dropWhile p).dropWhile p = l.dropWhile p := by
  intro l
  induction l with
  | nil => rfl
  | cons c cs ih =>
    rw [List.dropWhile_cons]
    by_cases hc : p c = true
    · rw [if_pos hc]
      exact ih
    · rw [if_neg hc, List.dropWhile_cons, if_neg hc]

theorem pyStrip_idem (l : Str) : pyStrip (pyStrip l) = pyStrip l := by
  have hu : pyStrip l ++ ((l.dropWhile pyIsSpace).reverse.takeWhile pyIsSpace).reverse =
      l.dropWhile pyIsSpace := by
    unfold pyStrip
    rw [← List.reverse_append, List.takeWhile_append_dropWhile, List.reverse_reverse]
  have h1 : (pyStrip l).dropWhile pyIsSpace = pyStrip l := by
    cases hr : pyStrip l with
    | nil => rfl
    | cons b bs =>
      rw [hr] at hu
      have hb : pyIsSpace b = false :=
        dropWhile_head_false pyIsSpace l b
          (bs ++ ((l.dropWhile pyIsSpace).reverse.takeWhile pyIsSpace).reverse) hu.symm
      rw [List.dropWhile_cons, if_neg (by simp [hb])]
  have h2 : (pyStrip l).reverse.dropWhile pyIsSpace = (pyStrip l).reverse := by
    have hrev : (pyStrip l).reverse =
        (l.dropWhile pyIsSpace).reverse.dropWhile pyIsSpace := by
      unfold pyStrip
      rw [List.reverse_reverse]
    rw [hrev, dropWhile_dropWhile]
  calc pyStrip (pyStrip l)
      = (((pyStrip l).dropWhile pyIsSpace).reverse.dropWhile pyIsSpace).reverse := rfl
    _ = ((pyStrip l).reverse.dropWhile pyIsSpace).reverse := by rw [h1]
    _ = (pyStrip l).reverse.reverse := by rw [h2]
    _ = pyStrip l := List.reverse_reverse _

theorem clean_eq_of_ne {y : Str} (hy : y.isEmpty = false) :
    clean_report_text y = pyStrip (collapseNL (urlRemove (sub2 (sub1 y)))) := by
  unfold clean_report_text
  rw [if_neg (by simp [hy])]

theorem clean_no3 (x : Str) :
    containsSub ['\n', '\n', '\n'] (clean_report_text x) = false := by
  unfold clean_report_text
  by_cases hx : x.isEmpty = true
  · rw [if_pos hx]
    rfl
  · rw [if_neg hx]
    apply containsSub_pyStrip_false
    unfold collapseNL
    exact collapseGo_no3 _ _ (Nat.le_refl _)

theorem pyStrip_clean (x : Str) :
    pyStrip (clean_report_text x) = clean_report_text x := by
  unfold clean_report_text
  by_cases hx : x.isEmpty = true
  · rw [if_pos hx]
    rfl
  · rw [if_neg hx]
    exact pyStrip_idem _

/-! ## Claim C1 -/

/-- C1 (amended): the sanitizer is idempotent on every input whose
sanitized output is *settled* — free of any occurrence of `http`
(case-insensitively, so passes 2 and 3 change nothing) and free of any
line-anchored sources/references label match (so pass 1 changes
nothing).  Unconditional idempotence fails: URL removal can uncover a
label line that only a second pass would delete (see the
counterexample). -/
theorem c1_sanitize_idempotent_on_settled_output (x : Str)
    (h1 : containsSub httpLit (lowerStr (clean_report_text x)) = false)
    (h2 : hasMatch1 (clean_report_text x) = false) :
    clean_report_text (clean_report_text x) = clean_report_text x := by
  by_cases hy : (clean_report_text x).isEmpty = true
  · have hnil : clean_report_text x = [] := List.isEmpty_iff.mp hy
    rw [hnil]
    rfl
  · have hyf : (clean_report_text x).isEmpty = false := Bool.eq_false_iff.mpr hy
    rw [clean_eq_of_ne hyf]
    rw [show sub1 (clean_report_text x) = clean_report_text x from
      sub1Go_id _ _ _ h2]
    rw [show sub2 (clean_report_text x) = clean_report_text x from
      sub2Go_id _ _ _ h1]
    rw [show urlRemove (clean_report_text x) = clean_report_text x from
      urlRemoveGo_id _ _ h1]
    rw [show collapseNL (clean_report_text x) = clean_report_text x from
      collapseGo_id _ _ (clean_no3 x)]
    exact pyStrip_clean x

/-- C1 witness: a plain two-paragraph report with no URLs and no label
lines sanitizes to itself, and a second sanitization changes nothing. -/
theorem c1_witness :
    (containsSub httpLit
        (lowerStr (clean_report_text ("Hello world.\n\nThis is fine.".toList))) = false ∧
      hasMatch1 (clean_report_text ("Hello world.\n\nThis is fine.".toList)) = false) ∧
      clean_report_text (clean_report_text ("Hello world.\n\nThis is fine.".toList)) =
        clean_report_text ("Hello world.\n\nThis is fine.".toList) :=
  ⟨⟨by decide, by decide⟩,
    c1_sanitize_idempotent_on_settled_output _ (by decide) (by decide)⟩
